import Mathlib

/-!
Verification of the core of `lego_app.py` (a LEGO-mosaic image transform).

Shallow embedding conventions:

* An RGB color is a triple of naturals (the Python code carries `(r, g, b)`
  tuples of ints in `[0, 255]`; arithmetic on them happens in `ℤ`).
* A PIL `Image` is modelled as a width, a height, and a total pixel map
  `ℕ → ℕ → RGB`; `Image.new "RGB" (w, h)` yields an all-black image and
  `putpixel` is pointwise function update, exactly the two PIL operations the
  core uses.
* `img.resize(grid_size, Image.BILINEAR)` is a call into PIL, an external
  collaborator; `lego_pixelate` below therefore takes the downsampled image
  directly as a pixel map `small : ℕ → ℕ → RGB` and everything downstream of
  that call is embedded faithfully.
* The accurate matcher's distance (lines 66-73 of the source:
  `delta_e_cie2000(rgb_to_lab pixel_rgb, rgb_to_lab color_rgb)` through the
  external `colormath` library) is abstracted as a parameter
  `delta : RGB → RGB → ℚ`; the scan logic around it (lines 67-79) is embedded
  exactly, with `float('inf')` modelled as `Option.none` (CIE2000 deltas are
  finite, so `delta < inf` is always true).
-/

/-- An RGB triple, channels as naturals. -/
abbrev RGB := ℕ × ℕ × ℕ

/-- A palette entry: `{"name": ..., "rgb": ...}` (source lines 13-56). -/
structure PaletteColor where
  name : String
  rgb : RGB
deriving DecidableEq

/-- The LEGO color palette, source lines 12-57, in declaration order. -/
def LEGO_COLORS : List PaletteColor := [
  ⟨"Brick Yellow", (236, 217, 185)⟩,
  ⟨"Nougat", (204, 142, 105)⟩,
  ⟨"Bright Red", (180, 0, 0)⟩,
  ⟨"Bright Blue", (0, 85, 191)⟩,
  ⟨"Bright Yellow", (255, 205, 0)⟩,
  ⟨"Black", (27, 42, 52)⟩,
  ⟨"Dark Green", (0, 69, 26)⟩,
  ⟨"Bright Green", (75, 151, 75)⟩,
  ⟨"Dark Orange", (160, 80, 0)⟩,
  ⟨"Medium Blue", (73, 138, 199)⟩,
  ⟨"Bright Orange", (255, 127, 0)⟩,
  ⟨"Bright Bluish Green", (0, 158, 143)⟩,
  ⟨"Bright Yellowish-Green", (193, 223, 0)⟩,
  ⟨"Bright Reddish Violet", (160, 0, 128)⟩,
  ⟨"Sand Blue", (100, 124, 162)⟩,
  ⟨"Sand Yellow", (170, 153, 114)⟩,
  ⟨"Earth Blue", (0, 32, 96)⟩,
  ⟨"Earth Green", (0, 50, 40)⟩,
  ⟨"Sand Green", (120, 144, 130)⟩,
  ⟨"Dark Red", (123, 0, 27)⟩,
  ⟨"Flame Yellowish Orange", (255, 176, 0)⟩,
  ⟨"Reddish Brown", (105, 64, 40)⟩,
  ⟨"Medium Stone Grey", (163, 162, 165)⟩,
  ⟨"Dark Stone Grey", (99, 95, 98)⟩,
  ⟨"Light Stone Grey", (229, 228, 223)⟩,
  ⟨"Light Royal Blue", (180, 210, 228)⟩,
  ⟨"Bright Purple", (123, 0, 123)⟩,
  ⟨"Light Purple", (220, 178, 229)⟩,
  ⟨"Cool Yellow", (255, 236, 108)⟩,
  ⟨"Dark Purple", (85, 0, 85)⟩,
  ⟨"Light Nougat", (255, 223, 196)⟩,
  ⟨"Dark Brown", (62, 32, 10)⟩,
  ⟨"Medium Nougat", (174, 122, 89)⟩,
  ⟨"Dark Azur", (32, 108, 137)⟩,
  ⟨"Medium Azur", (104, 195, 226)⟩,
  ⟨"Aqua", (175, 232, 225)⟩,
  ⟨"Medium Lavender", (180, 140, 200)⟩,
  ⟨"Lavender", (203, 153, 201)⟩,
  ⟨"White Glow", (247, 247, 247)⟩,
  ⟨"Spring Yellowish Green", (234, 255, 99)⟩,
  ⟨"Olive Green", (91, 110, 53)⟩,
  ⟨"Medium Yellowish Green", (170, 210, 60)⟩,
  ⟨"Vibrant Coral", (255, 115, 119)⟩,
  ⟨"Vibrant Yellow", (255, 239, 0)⟩]

/-- Source lines 83-84: `distance(c1, c2) = sum((a - b) ** 2 for a, b in
zip(c1, c2))`, computed over Python ints, hence in `ℤ`. -/
def distance (c1 c2 : RGB) : ℤ :=
  ((c1.1 : ℤ) - c2.1) ^ 2 + ((c1.2.1 : ℤ) - c2.2.1) ^ 2 + ((c1.2.2 : ℤ) - c2.2.2) ^ 2

/-- Python's `min(head :: tail, key)`: a left scan that keeps the current best
and replaces it only on a strictly smaller key, so the first minimum in list
order wins. -/
def minByKey {α β : Type} [LinearOrder β] (key : α → β) (best : α) : List α → α
  | [] => best
  | x :: xs => minByKey key (if key x < key best then x else best) xs

/-- Source lines 82-85: `min(LEGO_COLORS, key=lambda c: distance(pixel_rgb,
c["rgb"]))["rgb"]`. The `[]` branch is unreachable (`LEGO_COLORS` is a
nonempty literal; Python's `min` would raise `ValueError` there). -/
def closest_lego_color (pixel_rgb : RGB) : RGB :=
  match LEGO_COLORS with
  | [] => pixel_rgb
  | c :: cs => (minByKey (fun x => distance pixel_rgb x.rgb) c cs).rgb

/-- One iteration of the loop at source lines 70-77: compute `delta` for the
current palette `color`; if `delta < min_dist` (where `min_dist = none` models
the initial `float('inf')`, against which every finite delta compares smaller)
take `color` as the new `closest` and `delta` as the new `min_dist`. -/
def labStep {β : Type} [LinearOrder β] (key : PaletteColor → β)
    (acc : PaletteColor × Option β) (color : PaletteColor) : PaletteColor × Option β :=
  let delta := key color
  match acc.2 with
  | none => (color, some delta)
  | some min_dist => if delta < min_dist then (color, some delta) else acc

/-- Source lines 65-79: `closest = LEGO_COLORS[0]`, `min_dist = float('inf')`,
scan all of `LEGO_COLORS` with `labStep`, return `closest["rgb"]`.
`delta a b` abstracts `delta_e_cie2000(rgb_to_lab a, rgb_to_lab b)` (external
`colormath`). The `[]` branch is unreachable for the nonempty literal palette
(Python's `LEGO_COLORS[0]` would raise `IndexError`). -/
def closest_lego_color_lab (delta : RGB → RGB → ℚ) (pixel_rgb : RGB) : RGB :=
  match LEGO_COLORS with
  | [] => pixel_rgb
  | c0 :: _ =>
    (LEGO_COLORS.foldl (labStep (fun c => delta pixel_rgb c.rgb)) (c0, none)).1.rgb

/-- A PIL RGB image: width, height, and a total pixel map (unset pixels of a
fresh `Image.new("RGB", _)` are black). -/
structure Image where
  width : ℕ
  height : ℕ
  pixel : ℕ → ℕ → RGB

/-- `Image.new("RGB", (w, h))` (source line 90): all pixels black. -/
def Image.new (w h : ℕ) : Image :=
  ⟨w, h, fun _ _ => (0, 0, 0)⟩

/-- `img.putpixel((x, y), color)` (source line 102). -/
def putpixel (img : Image) (x y : ℕ) (color : RGB) : Image :=
  { img with pixel := fun a b => if a = x ∧ b = y then color else img.pixel a b }

/-- Source lines 100-102: the two inner loops filling one brick-sized block,
`for dy in range(pixel_size): for dx in range(pixel_size):
putpixel((x * pixel_size + dx, y * pixel_size + dy), color)`. -/
def fillBlock (img : Image) (pixel_size x y : ℕ) (color : RGB) : Image :=
  (List.range pixel_size).foldl (fun acc dy =>
    (List.range pixel_size).foldl (fun acc2 dx =>
      putpixel acc2 (x * pixel_size + dx) (y * pixel_size + dy) color) acc) img

/-- Source lines 94-98: the per-cell color choice: read `small.getpixel((x, y))`;
with `use_lego_palette`, dispatch on `high_accuracy` between the two matchers,
otherwise keep the downsampled color unchanged. -/
def cellColor (delta : RGB → RGB → ℚ) (small : ℕ → ℕ → RGB)
    (use_lego_palette high_accuracy : Bool) (x y : ℕ) : RGB :=
  let orig_color := small x y
  if use_lego_palette then
    if high_accuracy then closest_lego_color_lab delta orig_color
    else closest_lego_color orig_color
  else orig_color

/-- Source lines 88-103, `lego_pixelate`. `small` stands for
`img.resize(grid_size, Image.BILINEAR)` (line 89, external PIL collaborator);
`result` is `Image.new("RGB", (grid_size[0] * pixel_size, grid_size[1] *
pixel_size))` (line 90); then the row/column loops of lines 92-102. -/
def lego_pixelate (delta : RGB → RGB → ℚ) (small : ℕ → ℕ → RGB)
    (pixel_size : ℕ) (grid_size : ℕ × ℕ)
    (use_lego_palette high_accuracy : Bool) : Image :=
  let result := Image.new (grid_size.1 * pixel_size) (grid_size.2 * pixel_size)
  (List.range grid_size.2).foldl (fun acc y =>
    (List.range grid_size.1).foldl (fun acc2 x =>
      fillBlock acc2 pixel_size x y
        (cellColor delta small use_lego_palette high_accuracy x y)) acc) result

/-- Python's `int()` on a rational: truncation toward zero. -/
def pyInt (q : ℚ) : ℤ :=
  if q < 0 then -Int.floor (-q) else Int.floor q

/-- Source lines 129-130: `aspect_ratio = original.height / original.width`
(true division) and `height_blocks = int(width_blocks * aspect_ratio)`, with
the float arithmetic idealized as exact rationals. -/
def height_blocks (sourceWidth sourceHeight width_blocks : ℕ) : ℤ :=
  pyInt ((width_blocks : ℚ) * ((sourceHeight : ℚ) / (sourceWidth : ℚ)))

/-- Modelled from the spec wording for the matchers ("Selects the palette
entry minimizing this distance; ties broken by first occurrence in palette
declaration order"): the first list entry whose key is ≤ every key in the
list. The refinement theorems compare the code's scans against this. -/
def firstMinimumEntry {α β : Type} [LinearOrder β] (key : α → β) (l : List α) : Option α :=
  l.find? (fun a => l.all (fun b => decide (key a ≤ key b)))

/-- Modelled from the spec wording for the derived grid height:
`height = round(width * sourceHeight / sourceWidth)`. -/
def spec_height_blocks (sourceWidth sourceHeight width_blocks : ℕ) : ℤ :=
  round (((width_blocks : ℚ) * (sourceHeight : ℚ)) / (sourceWidth : ℚ))

/-! ### The stable-minimum scan, shared by both matchers -/

/-- Head of the palette literal, `LEGO_COLORS[0]`. -/
def legoHead : PaletteColor := ⟨"Brick Yellow", (236, 217, 185)⟩

/-- Tail of the palette literal. -/
def legoTail : List PaletteColor := LEGO_COLORS.tail

theorem LEGO_COLORS_eq : LEGO_COLORS = legoHead :: legoTail := rfl

theorem minByKey_mem {α β : Type} [LinearOrder β] (key : α → β) (l : List α) (best : α) :
    minByKey key best l ∈ best :: l := by
  induction l generalizing best with
  | nil => simp [minByKey]
  | cons x xs ih =>
    have h := ih (if key x < key best then x else best)
    rw [minByKey]
    rcases List.mem_cons.mp h with h1 | h1
    · rw [h1]; split <;> simp
    · simp [List.mem_cons.mpr (Or.inr (List.mem_cons.mpr (Or.inr h1)))]

theorem minByKey_le {α β : Type} [LinearOrder β] (key : α → β) (l : List α) (best : α) :
    ∀ a ∈ best :: l, key (minByKey key best l) ≤ key a := by
  induction l generalizing best with
  | nil =>
    intro a ha
    rw [List.mem_singleton] at ha
    rw [ha, minByKey]
  | cons x xs ih =>
    intro a ha
    rw [minByKey]
    have hbest : key (minByKey key (if key x < key best then x else best) xs) ≤
        key (if key x < key best then x else best) :=
      ih _ _ (List.mem_cons_self _ _)
    rcases List.mem_cons.mp ha with h1 | h1
    · rw [h1]
      refine le_trans hbest ?_
      split
      · next hlt => exact le_of_lt hlt
      · exact le_refl _
    rcases List.mem_cons.mp h1 with h2 | h2
    · rw [h2]
      refine le_trans hbest ?_
      split
      · exact le_refl _
      · next hlt => exact le_of_not_lt hlt
    · exact ih _ a (List.mem_cons_of_mem _ h2)

theorem find?_cons_true {α : Type} (p : α → Bool) (a : α) (l : List α) (h : p a = true) :
    (a :: l).find? p = some a := by
  simp [List.find?_cons, h]

theorem find?_cons_false {α : Type} (p : α → Bool) (a : α) (l : List α) (h : p a = false) :
    (a :: l).find? p = l.find? p := by
  simp [List.find?_cons, h]

theorem minByKey_find? {α β : Type} [LinearOrder β] (key : α → β) (l : List α) (best : α) :
    (best :: l).find? (fun a => decide (key a ≤ key (minByKey key best l))) =
      some (minByKey key best l) := by
  induction l generalizing best with
  | nil =>
    rw [minByKey]
    simp
  | cons x xs ih =>
    rw [minByKey]
    by_cases hx : key x < key best
    · rw [if_pos hx]
      have hr : key (minByKey key x xs) ≤ key x :=
        minByKey_le key xs x x (List.mem_cons_self _ _)
      have hbf : (decide (key best ≤ key (minByKey key x xs))) = false := by
        simp only [decide_eq_false_iff_not, not_le]
        exact lt_of_le_of_lt hr hx
      rw [find?_cons_false (fun a => decide (key a ≤ key (minByKey key x xs))) best (x :: xs) hbf]
      exact ih x
    · rw [if_neg hx]
      have hxb : key best ≤ key x := le_of_not_lt hx
      by_cases hb : key best ≤ key (minByKey key best xs)
      · have hbt : (decide (key best ≤ key (minByKey key best xs))) = true := by
          simpa using hb
        have h1 := ih best
        rw [find?_cons_true (fun a => decide (key a ≤ key (minByKey key best xs))) best xs hbt] at h1
        rw [find?_cons_true (fun a => decide (key a ≤ key (minByKey key best xs))) best (x :: xs) hbt]
        exact h1
      · have hbf : (decide (key best ≤ key (minByKey key best xs))) = false := by
          simpa using hb
        have h1 := ih best
        rw [find?_cons_false (fun a => decide (key a ≤ key (minByKey key best xs))) best xs hbf] at h1
        have hrblt : key (minByKey key best xs) < key best := by
          have hrb : key (minByKey key best xs) ≤ key best :=
            minByKey_le key xs best best (List.mem_cons_self _ _)
          exact lt_of_le_not_le hrb hb
        have hxf : (decide (key x ≤ key (minByKey key best xs))) = false := by
          simp only [decide_eq_false_iff_not, not_le]
          exact lt_of_lt_of_le hrblt hxb
        rw [find?_cons_false (fun a => decide (key a ≤ key (minByKey key best xs))) best (x :: xs) hbf,
          find?_cons_false (fun a => decide (key a ≤ key (minByKey key best xs))) x xs hxf]
        exact h1

theorem labFold_inv {β : Type} [LinearOrder β] (key : PaletteColor → β)
    (cs : List PaletteColor) (best : PaletteColor) :
    cs.foldl (labStep key) (best, some (key best)) =
      (minByKey key best cs, some (key (minByKey key best cs))) := by
  induction cs generalizing best with
  | nil => rw [minByKey]; rfl
  | cons x xs ih =>
    rw [List.foldl_cons, minByKey]
    have hstep : labStep key (best, some (key best)) x =
        (if key x < key best then x else best,
          some (key (if key x < key best then x else best))) := by
      by_cases h : key x < key best <;> simp [labStep, h]
    rw [hstep, ih]

theorem closest_lego_color_def (t : RGB) :
    closest_lego_color t = (minByKey (fun c => distance t c.rgb) legoHead legoTail).rgb := rfl

theorem closest_lego_color_lab_def (delta : RGB → RGB → ℚ) (t : RGB) :
    closest_lego_color_lab delta t =
      (minByKey (fun c => delta t c.rgb) legoHead legoTail).rgb := by
  have h1 : closest_lego_color_lab delta t =
      ((legoHead :: legoTail).foldl (labStep (fun c => delta t c.rgb))
        (legoHead, none)).1.rgb := rfl
  rw [h1, List.foldl_cons]
  have h2 : labStep (fun c => delta t c.rgb) (legoHead, none) legoHead =
      (legoHead, some (delta t legoHead.rgb)) := rfl
  rw [h2, labFold_inv (fun c => delta t c.rgb) legoTail legoHead]

theorem bool_eq_of_iff {a b : Bool} (h : a = true ↔ b = true) : a = b := by
  cases a <;> cases b <;> simp_all

theorem find?_congr_list {α : Type} (p q : α → Bool) (l : List α)
    (h : ∀ x ∈ l, p x = q x) : l.find? p = l.find? q := by
  induction l with
  | nil => rfl
  | cons a l ih =>
    have ha := h a (List.mem_cons_self a l)
    have hl := ih (fun x hx => h x (List.mem_cons_of_mem a hx))
    cases hp : p a
    · rw [find?_cons_false p a l hp, find?_cons_false q a l (ha ▸ hp), hl]
    · rw [find?_cons_true p a l hp, find?_cons_true q a l (ha ▸ hp)]

theorem minByKey_eq_firstMinimumEntry {α β : Type} [LinearOrder β]
    (key : α → β) (l : List α) (best : α) :
    firstMinimumEntry key (best :: l) = some (minByKey key best l) := by
  rw [firstMinimumEntry]
  rw [find?_congr_list (fun a => (best :: l).all (fun b => decide (key a ≤ key b)))
    (fun a => decide (key a ≤ key (minByKey key best l))) (best :: l) ?_]
  · exact minByKey_find? key l best
  · intro x _
    apply bool_eq_of_iff
    simp only [List.all_eq_true, decide_eq_true_eq]
    constructor
    · intro hall
      exact hall (minByKey key best l) (minByKey_mem key l best)
    · intro hle b hb
      exact le_trans hle (minByKey_le key l best b hb)

/-! ### Squared RGB distance facts -/

theorem distance_nonneg (a b : RGB) : 0 ≤ distance a b := by
  rw [distance]
  positivity

theorem distance_self (a : RGB) : distance a a = 0 := by
  simp [distance]

theorem eq_of_distance_nonpos {a b : RGB} (h : distance a b ≤ 0) : a = b := by
  obtain ⟨a1, a2, a3⟩ := a
  obtain ⟨b1, b2, b3⟩ := b
  rw [distance] at h
  simp only at h
  have n1 := sq_nonneg ((a1 : ℤ) - b1)
  have n2 := sq_nonneg ((a2 : ℤ) - b2)
  have n3 := sq_nonneg ((a3 : ℤ) - b3)
  have e1 : ((a1 : ℤ) - b1) ^ 2 = 0 := le_antisymm (by linarith) n1
  have e2 : ((a2 : ℤ) - b2) ^ 2 = 0 := le_antisymm (by linarith) n2
  have e3 : ((a3 : ℤ) - b3) ^ 2 = 0 := le_antisymm (by linarith) n3
  have f1 : a1 = b1 := by
    have := sub_eq_zero.mp (sq_eq_zero_iff.mp e1)
    exact_mod_cast this
  have f2 : a2 = b2 := by
    have := sub_eq_zero.mp (sq_eq_zero_iff.mp e2)
    exact_mod_cast this
  have f3 : a3 = b3 := by
    have := sub_eq_zero.mp (sq_eq_zero_iff.mp e3)
    exact_mod_cast this
  simp [f1, f2, f3]

/-! ### Closed form of the rendered image -/

theorem foldl_width {α : Type} (f : Image → α → Image)
    (hf : ∀ img a, (f img a).width = img.width) (l : List α) (img : Image) :
    (l.foldl f img).width = img.width := by
  induction l generalizing img with
  | nil => rfl
  | cons x xs ih => rw [List.foldl_cons, ih, hf]

theorem foldl_height {α : Type} (f : Image → α → Image)
    (hf : ∀ img a, (f img a).height = img.height) (l : List α) (img : Image) :
    (l.foldl f img).height = img.height := by
  induction l generalizing img with
  | nil => rfl
  | cons x xs ih => rw [List.foldl_cons, ih, hf]

theorem fillBlock_width (img : Image) (p x y : ℕ) (c : RGB) :
    (fillBlock img p x y c).width = img.width := by
  rw [fillBlock]
  refine foldl_width _ ?_ _ _
  intro img2 dy
  exact foldl_width (fun acc2 dx => putpixel acc2 (x * p + dx) (y * p + dy) c)
    (fun img3 dx => rfl) (List.range p) img2

theorem fillBlock_height (img : Image) (p x y : ℕ) (c : RGB) :
    (fillBlock img p x y c).height = img.height := by
  rw [fillBlock]
  refine foldl_height _ ?_ _ _
  intro img2 dy
  exact foldl_height (fun acc2 dx => putpixel acc2 (x * p + dx) (y * p + dy) c)
    (fun img3 dx => rfl) (List.range p) img2

theorem lego_pixelate_width (delta : RGB → RGB → ℚ) (small : ℕ → ℕ → RGB)
    (p : ℕ) (w h : ℕ) (up ha : Bool) :
    (lego_pixelate delta small p (w, h) up ha).width = w * p := by
  rw [lego_pixelate]
  refine Eq.trans (foldl_width _ ?_ _ _) rfl
  intro img y
  refine foldl_width _ ?_ _ img
  intro img2 x
  exact fillBlock_width img2 p x y _

theorem lego_pixelate_height (delta : RGB → RGB → ℚ) (small : ℕ → ℕ → RGB)
    (p : ℕ) (w h : ℕ) (up ha : Bool) :
    (lego_pixelate delta small p (w, h) up ha).height = h * p := by
  rw [lego_pixelate]
  refine Eq.trans (foldl_height _ ?_ _ _) rfl
  intro img y
  refine foldl_height _ ?_ _ img
  intro img2 x
  exact fillBlock_height img2 p x y _

theorem row_putpixel_pixel (n : ℕ) (img : Image) (x0 y0 : ℕ) (c : RGB) (a b : ℕ) :
    ((List.range n).foldl (fun acc dx => putpixel acc (x0 + dx) y0 c) img).pixel a b =
      if b = y0 ∧ x0 ≤ a ∧ a < x0 + n then c else img.pixel a b := by
  induction n with
  | zero =>
    simp only [List.range_zero, List.foldl_nil]
    have : ¬(b = y0 ∧ x0 ≤ a ∧ a < x0 + 0) := by omega
    rw [if_neg this]
  | succ n ih =>
    rw [List.range_succ, List.foldl_append, List.foldl_cons, List.foldl_nil]
    show (if a = x0 + n ∧ b = y0 then c
      else ((List.range n).foldl (fun acc dx => putpixel acc (x0 + dx) y0 c) img).pixel a b) = _
    rw [ih]
    split_ifs <;> first | rfl | omega

theorem block_rows_pixel (m : ℕ) (img : Image) (p x y : ℕ) (c : RGB) (a b : ℕ) :
    ((List.range m).foldl (fun acc dy =>
        (List.range p).foldl (fun acc2 dx =>
          putpixel acc2 (x * p + dx) (y * p + dy) c) acc) img).pixel a b =
      if x * p ≤ a ∧ a < x * p + p ∧ y * p ≤ b ∧ b < y * p + m then c
      else img.pixel a b := by
  induction m with
  | zero =>
    simp only [List.range_zero, List.foldl_nil]
    have : ¬(x * p ≤ a ∧ a < x * p + p ∧ y * p ≤ b ∧ b < y * p + 0) := by omega
    rw [if_neg this]
  | succ m ih =>
    rw [List.range_succ, List.foldl_append, List.foldl_cons, List.foldl_nil]
    rw [row_putpixel_pixel p _ (x * p) (y * p + m) c a b, ih]
    split_ifs <;> first | rfl | omega

theorem fillBlock_pixel (img : Image) (p x y : ℕ) (c : RGB) (a b : ℕ) :
    (fillBlock img p x y c).pixel a b =
      if x * p ≤ a ∧ a < x * p + p ∧ y * p ≤ b ∧ b < y * p + p then c
      else img.pixel a b := by
  rw [fillBlock]
  exact block_rows_pixel p img p x y c a b

theorem block_row_pixel (col : ℕ → ℕ → RGB) (p : ℕ) (w y : ℕ)
    (img : Image) (a b : ℕ) :
    ((List.range w).foldl (fun acc x => fillBlock acc p x y (col x y)) img).pixel a b =
      if a < w * p ∧ y * p ≤ b ∧ b < y * p + p then col (a / p) y
      else img.pixel a b := by
  induction w with
  | zero =>
    simp only [List.range_zero, List.foldl_nil]
    have : ¬(a < 0 * p ∧ y * p ≤ b ∧ b < y * p + p) := by omega
    rw [if_neg this]
  | succ w ih =>
    rw [List.range_succ, List.foldl_append, List.foldl_cons, List.foldl_nil]
    rw [fillBlock_pixel, ih]
    by_cases h1 : w * p ≤ a ∧ a < w * p + p ∧ y * p ≤ b ∧ b < y * p + p
    · rw [if_pos h1]
      have ha : a / p = w := Nat.div_eq_of_lt_le h1.1 (by
        rw [Nat.succ_mul]
        exact h1.2.1)
      have h2 : a < (w + 1) * p ∧ y * p ≤ b ∧ b < y * p + p := by
        refine ⟨?_, h1.2.2⟩
        rw [Nat.succ_mul]
        exact h1.2.1
      rw [if_pos h2, ha]
    · rw [if_neg h1]
      have hmul : (w + 1) * p = w * p + p := Nat.succ_mul w p
      rw [hmul]
      split_ifs <;> first | rfl | omega

theorem grid_rows_pixel (col : ℕ → ℕ → RGB) (p : ℕ) (w h : ℕ)
    (img : Image) (a b : ℕ) :
    ((List.range h).foldl (fun acc y =>
        (List.range w).foldl (fun acc2 x => fillBlock acc2 p x y (col x y)) acc) img).pixel a b =
      if a < w * p ∧ b < h * p then col (a / p) (b / p)
      else img.pixel a b := by
  induction h with
  | zero =>
    simp only [List.range_zero, List.foldl_nil]
    have : ¬(a < w * p ∧ b < 0 * p) := by omega
    rw [if_neg this]
  | succ h ih =>
    rw [List.range_succ, List.foldl_append, List.foldl_cons, List.foldl_nil]
    rw [block_row_pixel col p w h _ a b, ih]
    by_cases h1 : a < w * p ∧ h * p ≤ b ∧ b < h * p + p
    · rw [if_pos h1]
      have hb : b / p = h := Nat.div_eq_of_lt_le h1.2.1 (by
        rw [Nat.succ_mul]
        exact h1.2.2)
      have h2 : a < w * p ∧ b < (h + 1) * p := by
        refine ⟨h1.1, ?_⟩
        rw [Nat.succ_mul]
        exact h1.2.2
      rw [if_pos h2, hb]
    · rw [if_neg h1]
      have hmul : (h + 1) * p = h * p + p := Nat.succ_mul h p
      rw [hmul]
      split_ifs <;> first | rfl | omega

theorem lego_pixelate_pixel (delta : RGB → RGB → ℚ) (small : ℕ → ℕ → RGB)
    (p : ℕ) (w h : ℕ) (up ha : Bool) (a b : ℕ) :
    (lego_pixelate delta small p (w, h) up ha).pixel a b =
      if a < w * p ∧ b < h * p then cellColor delta small up ha (a / p) (b / p)
      else (0, 0, 0) := by
  rw [lego_pixelate]
  exact grid_rows_pixel (cellColor delta small up ha) p w h (Image.new (w * p) (h * p)) a b

theorem cellColor_no_palette (delta : RGB → RGB → ℚ) (small : ℕ → ℕ → RGB)
    (ha : Bool) (x y : ℕ) : cellColor delta small false ha x y = small x y := rfl

theorem cellColor_fast (delta : RGB → RGB → ℚ) (small : ℕ → ℕ → RGB) (x y : ℕ) :
    cellColor delta small true false x y = closest_lego_color (small x y) := rfl

theorem cellColor_lab (delta : RGB → RGB → ℚ) (small : ℕ → ℕ → RGB) (x y : ℕ) :
    cellColor delta small true true x y = closest_lego_color_lab delta (small x y) := rfl

theorem closest_lego_color_mem (t : RGB) :
    ∃ e ∈ LEGO_COLORS, closest_lego_color t = e.rgb := by
  refine ⟨minByKey (fun c => distance t c.rgb) legoHead legoTail, ?_, closest_lego_color_def t⟩
  rw [LEGO_COLORS_eq]
  exact minByKey_mem _ legoTail legoHead

theorem closest_lego_color_lab_mem (delta : RGB → RGB → ℚ) (t : RGB) :
    ∃ e ∈ LEGO_COLORS, closest_lego_color_lab delta t = e.rgb := by
  refine ⟨minByKey (fun c => delta t c.rgb) legoHead legoTail, ?_,
    closest_lego_color_lab_def delta t⟩
  rw [LEGO_COLORS_eq]
  exact minByKey_mem _ legoTail legoHead

theorem block_bound {x w p d : ℕ} (hx : x < w) (hd : d < p) : x * p + d < w * p := by
  have h2 : (x + 1) * p ≤ w * p := Nat.mul_le_mul_right p (Nat.succ_le_of_lt hx)
  rw [Nat.succ_mul] at h2
  omega

theorem block_div {x p d : ℕ} (hd : d < p) : (x * p + d) / p = x := by
  refine Nat.div_eq_of_lt_le (Nat.le_add_right _ _) ?_
  rw [Nat.succ_mul]
  omega

theorem mul_div_self_nat (x : ℕ) {p : ℕ} (hp : 0 < p) : x * p / p = x := by
  have h : (x * p + 0) / p = x := block_div hp
  simpa using h

/-- C1: with the palette flag on, every pixel of the output of `lego_pixelate`
(under either matching strategy, i.e. for both values of `high_accuracy` and
any distance function) is exactly the RGB triple of one of the `LEGO_COLORS`
entries, never a blended or rounded value. -/
theorem C1_palette_containment (delta : RGB → RGB → ℚ) (small : ℕ → ℕ → RGB)
    (p w h : ℕ) (ha : Bool) (a b : ℕ)
    (hp : 0 < p) (haw : a < w * p) (hbh : b < h * p) :
    ∃ e ∈ LEGO_COLORS, (lego_pixelate delta small p (w, h) true ha).pixel a b = e.rgb := by
  rw [lego_pixelate_pixel, if_pos ⟨haw, hbh⟩]
  cases ha
  · rw [cellColor_fast]
    exact closest_lego_color_mem _
  · rw [cellColor_lab]
    exact closest_lego_color_lab_mem _ _

theorem C1_palette_containment_witness :
    ∃ e ∈ LEGO_COLORS,
      (lego_pixelate (fun a b => 0) (fun x y => (10, 20, 30)) 2 (3, 3) true false).pixel 1 1 =
        e.rgb :=
  C1_palette_containment (fun a b => 0) (fun x y => (10, 20, 30)) 2 3 3 false 1 1
    (by decide) (by decide) (by decide)

/-- C2: the output image of `lego_pixelate` has width `w * p` and height
`h * p` for every positive brick size `p` and grid size `(w, h)`, every input
image and both flags. -/
theorem C2_dimension_invariant (delta : RGB → RGB → ℚ) (small : ℕ → ℕ → RGB)
    (p w h : ℕ) (up ha : Bool) (hp : 0 < p) (hw : 0 < w) (hh : 0 < h) :
    (lego_pixelate delta small p (w, h) up ha).width = w * p ∧
    (lego_pixelate delta small p (w, h) up ha).height = h * p :=
  ⟨lego_pixelate_width delta small p w h up ha, lego_pixelate_height delta small p w h up ha⟩

theorem C2_dimension_invariant_witness :
    (lego_pixelate (fun a b => 0) (fun x y => (0, 0, 0)) 5 (3, 4) true true).width = 3 * 5 ∧
    (lego_pixelate (fun a b => 0) (fun x y => (0, 0, 0)) 5 (3, 4) true true).height = 4 * 5 :=
  C2_dimension_invariant (fun a b => 0) (fun x y => (0, 0, 0)) 5 3 4 true true
    (by decide) (by decide) (by decide)

/-- C3: every pixel of the block rendered for grid cell `(x, y)` equals the
block's top-left pixel: the rendered mosaic is flat within each block. -/
theorem C3_flatness (delta : RGB → RGB → ℚ) (small : ℕ → ℕ → RGB)
    (p w h : ℕ) (up ha : Bool) (x y dx dy : ℕ)
    (hp : 0 < p) (hx : x < w) (hy : y < h) (hdx : dx < p) (hdy : dy < p) :
    (lego_pixelate delta small p (w, h) up ha).pixel (x * p + dx) (y * p + dy) =
      (lego_pixelate delta small p (w, h) up ha).pixel (x * p) (y * p) := by
  rw [lego_pixelate_pixel, lego_pixelate_pixel]
  rw [if_pos ⟨block_bound hx hdx, block_bound hy hdy⟩]
  rw [if_pos ⟨block_bound hx hp, block_bound hy hp⟩]
  rw [block_div hdx, block_div hdy, mul_div_self_nat x hp, mul_div_self_nat y hp]

theorem C3_flatness_witness :
    (lego_pixelate (fun a b => 0) (fun x y => (9, 9, 9)) 3 (2, 2) false true).pixel
        (1 * 3 + 2) (0 * 3 + 1) =
      (lego_pixelate (fun a b => 0) (fun x y => (9, 9, 9)) 3 (2, 2) false true).pixel
        (1 * 3) (0 * 3) :=
  C3_flatness (fun a b => 0) (fun x y => (9, 9, 9)) 3 2 2 false true 1 0 2 1
    (by decide) (by decide) (by decide) (by decide) (by decide)

/-- C8: with the palette flag off, each block of the output is filled with
exactly the corresponding pixel of the downsampled image `small` (the result
of the bilinear resize), with no palette lookup. -/
theorem C8_passthrough (delta : RGB → RGB → ℚ) (small : ℕ → ℕ → RGB)
    (p w h : ℕ) (ha : Bool) (x y dx dy : ℕ)
    (hp : 0 < p) (hx : x < w) (hy : y < h) (hdx : dx < p) (hdy : dy < p) :
    (lego_pixelate delta small p (w, h) false ha).pixel (x * p + dx) (y * p + dy) =
      small x y := by
  rw [lego_pixelate_pixel, if_pos ⟨block_bound hx hdx, block_bound hy hdy⟩]
  rw [block_div hdx, block_div hdy, cellColor_no_palette]

theorem C8_passthrough_witness :
    (lego_pixelate (fun a b => 0) (fun x y => (x + 100, y + 50, 7)) 4 (2, 3) false true).pixel
        (1 * 4 + 3) (2 * 4 + 0) = (1 + 100, 2 + 50, 7) :=
  C8_passthrough (fun a b => 0) (fun x y => (x + 100, y + 50, 7)) 4 2 3 true 1 2 3 0
    (by decide) (by decide) (by decide) (by decide) (by decide)

/-- C10: with the palette flag off, the `high_accuracy` flag (and with it the
whole accurate-matching distance) has no influence on the output of
`lego_pixelate`: the runs with `high_accuracy = true` and `= false` produce
identical images. -/
theorem C10_high_accuracy_noninterference (delta1 delta2 : RGB → RGB → ℚ)
    (small : ℕ → ℕ → RGB) (p w h : ℕ) (hp : 0 < p) (hw : 0 < w) (hh : 0 < h) :
    lego_pixelate delta1 small p (w, h) false true =
      lego_pixelate delta2 small p (w, h) false false := by
  have hc : ∀ x y : ℕ, cellColor delta1 small false true x y =
      cellColor delta2 small false false x y := fun x y =>
    (cellColor_no_palette delta1 small true x y).trans
      (cellColor_no_palette delta2 small false x y).symm
  simp only [lego_pixelate, hc]

theorem C10_high_accuracy_noninterference_witness :
    lego_pixelate (fun a b => 0) (fun x y => (1, 2, 3)) 2 (2, 2) false true =
      lego_pixelate (fun a b => 1) (fun x y => (1, 2, 3)) 2 (2, 2) false false :=
  C10_high_accuracy_noninterference (fun a b => 0) (fun a b => 1) (fun x y => (1, 2, 3)) 2 2 2
    (by decide) (by decide) (by decide)

/-- C4: contrary to the spec's error-handling design, `lego_pixelate` performs
no parameter validation: at brick size 0 it silently returns a degenerate
0×0 image (for any input image, palette distance and flags) instead of
rejecting the call with an `InvalidParameter` error. No such error exists
anywhere in the source. -/
theorem C4_no_rejection_degenerate_output (delta : RGB → RGB → ℚ)
    (small : ℕ → ℕ → RGB) (up ha : Bool) :
    (lego_pixelate delta small 0 (1, 1) up ha).width = 0 ∧
    (lego_pixelate delta small 0 (1, 1) up ha).height = 0 := by
  constructor
  · have h := lego_pixelate_width delta small 0 1 1 up ha
    simpa using h
  · have h := lego_pixelate_height delta small 0 1 1 up ha
    simpa using h

/-- C6: if the input RGB triple equals a palette entry's RGB exactly, both
matchers return that RGB triple. For the accurate matcher this holds for
every distance function that is zero on equal RGB triples and positive on
distinct ones (as the CIE2000 delta on Lab conversions is). -/
theorem C6_exact_hit (delta : RGB → RGB → ℚ) (e : PaletteColor) (he : e ∈ LEGO_COLORS)
    (hd0 : ∀ c : RGB, delta c c = 0)
    (hdpos : ∀ a b : RGB, a ≠ b → 0 < delta a b) :
    closest_lego_color e.rgb = e.rgb ∧ closest_lego_color_lab delta e.rgb = e.rgb := by
  have hmem : e ∈ legoHead :: legoTail := by
    rw [← LEGO_COLORS_eq]
    exact he
  constructor
  · rw [closest_lego_color_def]
    have hle := minByKey_le (fun c => distance e.rgb c.rgb) legoTail legoHead e hmem
    simp only at hle
    rw [distance_self] at hle
    exact (eq_of_distance_nonpos hle).symm
  · rw [closest_lego_color_lab_def]
    have hle := minByKey_le (fun c => delta e.rgb c.rgb) legoTail legoHead e hmem
    simp only at hle
    rw [hd0] at hle
    by_contra hne
    have hpos := hdpos e.rgb
      (minByKey (fun c => delta e.rgb c.rgb) legoHead legoTail).rgb
      (fun hh => hne hh.symm)
    linarith

theorem C6_exact_hit_witness :
    (⟨"Bright Red", (180, 0, 0)⟩ : PaletteColor) ∈ LEGO_COLORS ∧
    closest_lego_color (180, 0, 0) = (180, 0, 0) ∧
    closest_lego_color_lab (fun a b => if a = b then 0 else 1) (180, 0, 0) = (180, 0, 0) := by
  have h := C6_exact_hit (fun a b => if a = b then 0 else 1)
    ⟨"Bright Red", (180, 0, 0)⟩ (by decide)
    (fun c => by simp)
    (fun a b hab => by simp [hab])
  exact ⟨by decide, h.1, h.2⟩

/-- C7: each matcher returns the RGB of the palette entry achieving the
minimum of its distance metric, and on ties the first such entry in palette
declaration order: both scans refine `firstMinimumEntry`, the spec-side
"first entry whose key is ≤ every key" selector (for the accurate matcher,
for every distance function). -/
theorem C7_stable_minimum_scan (t : RGB) (delta : RGB → RGB → ℚ) :
    some (closest_lego_color t) =
      Option.map PaletteColor.rgb
        (firstMinimumEntry (fun c => distance t c.rgb) LEGO_COLORS) ∧
    some (closest_lego_color_lab delta t) =
      Option.map PaletteColor.rgb
        (firstMinimumEntry (fun c => delta t c.rgb) LEGO_COLORS) := by
  constructor
  · rw [closest_lego_color_def, LEGO_COLORS_eq, minByKey_eq_firstMinimumEntry]
    rfl
  · rw [closest_lego_color_lab_def, LEGO_COLORS_eq, minByKey_eq_firstMinimumEntry]
    rfl

set_option maxRecDepth 8000 in
/-- C5: for a solid (255,0,0) input (so the downsampled 1×1 image reads
(255,0,0) at cell (0,0)), grid (1,1), brick size 10, palette on, accuracy
off, the output is a single 10×10 block of "Bright Red" (180,0,0), and
(180,0,0) is the unique minimizer of squared RGB distance to (255,0,0) over
the 44 palette entries. -/
theorem C5_solid_red_scenario (delta : RGB → RGB → ℚ) (small : ℕ → ℕ → RGB)
    (hsmall : small 0 0 = (255, 0, 0)) :
    (lego_pixelate delta small 10 (1, 1) true false).width = 10 ∧
    (lego_pixelate delta small 10 (1, 1) true false).height = 10 ∧
    (∀ a b : ℕ, a < 10 → b < 10 →
      (lego_pixelate delta small 10 (1, 1) true false).pixel a b = (180, 0, 0)) ∧
    (⟨"Bright Red", (180, 0, 0)⟩ : PaletteColor) ∈ LEGO_COLORS ∧
    LEGO_COLORS.length = 44 ∧
    (∀ e ∈ LEGO_COLORS, e.rgb ≠ (180, 0, 0) →
      distance (255, 0, 0) (180, 0, 0) < distance (255, 0, 0) e.rgb) := by
  refine ⟨?_, ?_, ?_, by decide, by decide, by decide⟩
  · have h := lego_pixelate_width delta small 10 1 1 true false
    simpa using h
  · have h := lego_pixelate_height delta small 10 1 1 true false
    simpa using h
  · intro a b hab hbb
    rw [lego_pixelate_pixel]
    rw [if_pos ⟨by omega, by omega⟩]
    rw [Nat.div_eq_of_lt hab, Nat.div_eq_of_lt hbb]
    rw [cellColor_fast, hsmall]
    decide

theorem C5_solid_red_scenario_witness :
    (lego_pixelate (fun a b => 0) (fun x y => (255, 0, 0)) 10 (1, 1) true false).width = 10 ∧
    (lego_pixelate (fun a b => 0) (fun x y => (255, 0, 0)) 10 (1, 1) true false).pixel 3 4 =
      (180, 0, 0) := by
  have h := C5_solid_red_scenario (fun a b => 0) (fun x y => (255, 0, 0)) rfl
  exact ⟨h.1, h.2.2.1 3 4 (by decide) (by decide)⟩

/-- C9 counterexample: at source size 2×1 and grid width 3 the code derives
grid height `int(3 * (1/2)) = 1`, while `round(3 * 1 / 2) = 2`: the claimed
round-to-nearest derivation is false for the code (the float arithmetic is
exact at these values). -/
theorem C9_round_counterexample :
    height_blocks 2 1 3 = 1 ∧ spec_height_blocks 2 1 3 = 2 ∧
    height_blocks 2 1 3 ≠ spec_height_blocks 2 1 3 := by
  have h1 : height_blocks 2 1 3 = 1 := by
    rw [height_blocks, pyInt]
    rw [if_neg (by norm_num)]
    rw [Int.floor_eq_iff]
    push_cast
    norm_num
  have h2 : spec_height_blocks 2 1 3 = 2 := by
    rw [spec_height_blocks, round_eq]
    rw [Int.floor_eq_iff]
    push_cast
    norm_num
  refine ⟨h1, h2, ?_⟩
  rw [h1, h2]
  decide

/-- C9 amended: the derived grid height equals the floor (truncation) of
`width_blocks * sourceHeight / sourceWidth`, i.e. natural floor division of
`w * H` by `W`, not rounding to nearest. -/
theorem C9_height_is_floor (W H w : ℕ) (hW : 0 < W) :
    height_blocks W H w = ((w * H) / W : ℕ) := by
  rw [height_blocks, pyInt]
  have hnn : (0 : ℚ) ≤ (w : ℚ) * ((H : ℚ) / (W : ℚ)) := by positivity
  rw [if_neg (not_lt.mpr hnn)]
  have heq : (w : ℚ) * ((H : ℚ) / (W : ℚ)) = (((w * H : ℕ) : ℤ) : ℚ) / ((W : ℕ) : ℚ) := by
    push_cast
    ring
  rw [heq, Rat.floor_intCast_div_natCast]
  exact (Int.natCast_div (w * H) W).symm

theorem C9_height_is_floor_witness : height_blocks 2 1 3 = ((3 * 1) / 2 : ℕ) :=
  C9_height_is_floor 2 1 3 (by decide)
